import Mathlib

/-!
Verification of the task-list state manager of `src/src/comonents/todo.jsx`
(Salman2105/To-Do-Tasks).

The component keeps an ordered list of task records
`{ id, text, completed, date }` in React state, and the handlers
`addTodo`, `toggleTodo`, `deleteTodo` mutate it.  A `useEffect` with
dependency `[todos]` writes `JSON.stringify(todos)` to the localStorage
slot `"todos"` after every state change, and the `useState` initializer
reads the slot back with `JSON.parse` on mount.

We embed the list operations as pure Lean functions on `List Task`,
the clock value `new Date().toISOString().split('T')[0]` as a
year/month/day formatter, `crypto.randomUUID()` as an injected id whose
freshness is a hypothesis where the spec needs it, and the JSON layer as
a structural `Json` type with a printer and a (fuel-based) parser so that
the uncaught `JSON.parse` on load can be evaluated on malformed input.
-/

namespace Todo

/-- A task record as built at `todo.jsx:38-43`:
`{ id: crypto.randomUUID(), text, completed: false, date: ... }`. -/
structure Task where
  id : String
  text : String
  completed : Bool
  date : String
deriving DecidableEq, Repr

/-- Line `todo.jsx:42` computes `new Date().toISOString().split('T')[0]`,
the current calendar date rendered as `YYYY-MM-DD`.  We model the clock
reading as the year/month/day triple and keep the formatting. -/
def pad2 (n : Nat) : String :=
  if n < 10 then "0" ++ toString n else toString n

/-- Four-digit zero padding of the year, as in an ISO-8601 timestamp. -/
def pad4 (n : Nat) : String :=
  if n < 10 then "000" ++ toString n
  else if n < 100 then "00" ++ toString n
  else if n < 1000 then "0" ++ toString n
  else toString n

/-- The `YYYY-MM-DD` prefix of `toISOString()`, i.e. the string the code
stores when the user supplied no date. -/
def isoDateString (y m d : Nat) : String :=
  pad4 y ++ "-" ++ pad2 m ++ "-" ++ pad2 d

/-- JavaScript `String.prototype.trim` (`inputValue.trim()` at
`todo.jsx:34`): removes leading and trailing whitespace. -/
def jsTrim (s : String) : String :=
  ⟨((s.data.dropWhile Char.isWhitespace).reverse.dropWhile
      Char.isWhitespace).reverse⟩

/-- Handler `addTodo` (`todo.jsx:33-47`): trims the input, returns without any
state change when the trimmed text is empty (`if (!text) return`), and
otherwise appends `{ id: freshId, text, completed: false,
date: inputDate || today }`.  `freshId` stands for the
`crypto.randomUUID()` call and `today` for the clock string; JavaScript
`||` takes the right operand exactly when `inputDate` is the empty
string. -/
def addTodo (todos : List Task) (inputValue inputDate freshId today : String) :
    List Task :=
  let text := jsTrim inputValue
  if text = "" then todos
  else todos ++ [{ id := freshId, text := text, completed := false,
                   date := if inputDate = "" then today else inputDate }]

/-- Handler `toggleTodo` (`todo.jsx:49-52`):
`prev.map((t) => (t.id === id ? { ...t, completed: !t.completed } : t))`. -/
def toggleTodo (todos : List Task) (id : String) : List Task :=
  todos.map (fun t => if t.id = id then { t with completed := !t.completed } else t)

/-- Handler `deleteTodo` (`todo.jsx:54-55`): `prev.filter((t) => t.id !== id)`. -/
def deleteTodo (todos : List Task) (id : String) : List Task :=
  todos.filter (fun t => !(t.id == id))

/-- The id column of a task list, used to state the distinctness
invariant. -/
def ids (todos : List Task) : List String :=
  todos.map Task.id

/-- Derived count `remainingCount` (`todo.jsx:97`):
`todos.filter((t) => !t.completed).length`. -/
def remainingCount (todos : List Task) : Nat :=
  (todos.filter (fun t => !t.completed)).length

/-- Structural JSON values, the data that `JSON.stringify` /
`JSON.parse` (`todo.jsx:22,29`) move across the localStorage slot. -/
inductive Json where
  | null : Json
  | bool (b : Bool) : Json
  | num (n : Int) : Json
  | str (s : String) : Json
  | arr (elems : List Json) : Json
  | obj (fields : List (String × Json)) : Json

/-- Escaping of one character inside a JSON string literal, as
`JSON.stringify` performs it for the characters that can appear here. -/
def escChar (c : Char) : List Char :=
  if c = '"' then ['\\', '"']
  else if c = '\\' then ['\\', '\\']
  else if c = '\n' then ['\\', 'n']
  else if c = '\t' then ['\\', 't']
  else if c = '\r' then ['\\', 'r']
  else [c]

mutual

/-- Model of `JSON.stringify` (`todo.jsx:29`), producing the canonical compact
text of a structural JSON value. -/
def printJson : Json → List Char
  | .null => "null".data
  | .bool true => "true".data
  | .bool false => "false".data
  | .num n => (toString n).data
  | .str s => '"' :: s.data.foldr (fun c acc => escChar c ++ acc) ['"']
  | .arr es => '[' :: printJsonList es ++ [']']
  | .obj fs => '\x7b' :: printJsonFields fs ++ ['\x7d']

/-- Comma-separated printing of array elements. -/
def printJsonList : List Json → List Char
  | [] => []
  | [j] => printJson j
  | j :: rest => printJson j ++ ',' :: printJsonList rest

/-- Comma-separated printing of object members. -/
def printJsonFields : List (String × Json) → List Char
  | [] => []
  | [(k, j)] => '"' :: k.data.foldr (fun c acc => escChar c ++ acc) ['"'] ++
      ':' :: printJson j
  | (k, j) :: rest => '"' :: k.data.foldr (fun c acc => escChar c ++ acc) ['"'] ++
      ':' :: printJson j ++ ',' :: printJsonFields rest

end

/-- A task record as `JSON.stringify` lays it out: the object literal at
`todo.jsx:38-43` lists `id`, `text`, `completed`, `date` in that
order. -/
def encodeTask (t : Task) : Json :=
  .obj [("id", .str t.id), ("text", .str t.text),
        ("completed", .bool t.completed), ("date", .str t.date)]

/-- The whole persisted value: the task array. -/
def encodeTasks (todos : List Task) : Json :=
  .arr (todos.map encodeTask)

/-- The string written to `localStorage.setItem("todos", ...)` at
`todo.jsx:29`. -/
def stringifyTasks (todos : List Task) : String :=
  ⟨printJson (encodeTasks todos)⟩

/-- First member of a parsed JSON object with the given key — JavaScript
property access (`todo.jsx` reads `t.id`, `t.text`, `t.completed`,
`t.date` off the parsed objects). -/
def lookupField (fields : List (String × Json)) (k : String) : Option Json :=
  match fields with
  | [] => none
  | (k', v) :: rest => if k' = k then some v else lookupField rest k

/-- Interpretation of one parsed JSON value as a task record, reading
the four properties the component accesses. -/
def decodeTask (j : Json) : Option Task :=
  match j with
  | .obj fs =>
    match lookupField fs "id", lookupField fs "text",
          lookupField fs "completed", lookupField fs "date" with
    | some (.str id), some (.str text), some (.bool completed),
      some (.str date) =>
        some { id := id, text := text, completed := completed, date := date }
    | _, _, _, _ => none
  | _ => none

/-- Interpretation of a parsed JSON value as the task array. -/
def decodeTasks (j : Json) : Option (List Task) :=
  match j with
  | .arr es => es.mapM decodeTask
  | _ => none

/-- JSON insignificant whitespace skipping. -/
def skipWs : List Char → List Char
  | [] => []
  | c :: cs =>
    if c = ' ' || c = '\n' || c = '\t' || c = '\r' then skipWs cs else c :: cs

/-- Body of a JSON string literal after the opening quote: returns the
decoded characters and the input after the closing quote. -/
def parseStringBody : Nat → List Char → Option (List Char × List Char)
  | 0, _ => none
  | _, [] => none
  | fuel+1, c :: cs =>
    if c = '"' then some ([], cs)
    else if c = '\\' then
      match cs with
      | [] => none
      | e :: cs' =>
        let d? : Option Char :=
          if e = '"' then some '"'
          else if e = '\\' then some '\\'
          else if e = '/' then some '/'
          else if e = 'n' then some '\n'
          else if e = 't' then some '\t'
          else if e = 'r' then some '\r'
          else if e = 'b' then some (Char.ofNat 8)
          else if e = 'f' then some (Char.ofNat 12)
          else none
        match d? with
        | none => none
        | some d =>
          match parseStringBody fuel cs' with
          | some (body, rest) => some (d :: body, rest)
          | none => none
    else
      match parseStringBody fuel cs with
      | some (body, rest) => some (c :: body, rest)
      | none => none

/-- Longest digit prefix of the input. -/
def takeDigits : List Char → List Char × List Char
  | [] => ([], [])
  | c :: cs =>
    if c.isDigit then
      let (ds, rest) := takeDigits cs
      (c :: ds, rest)
    else ([], c :: cs)

/-- Numeric value of a digit string. -/
def digitsToNat (ds : List Char) : Nat :=
  ds.foldl (fun a c => a * 10 + (c.toNat - 48)) 0

mutual

/-- One JSON value at the head of the input (integer numbers only — the
persisted layout stores no numbers, the case exists so that texts such
as `"5"` parse the way `JSON.parse` accepts them). -/
def parseJsonVal : Nat → List Char → Option (Json × List Char)
  | 0, _ => none
  | fuel+1, cs =>
    match skipWs cs with
    | [] => none
    | c :: rest =>
      if c = 'n' then
        match rest with
        | 'u' :: 'l' :: 'l' :: rest' => some (.null, rest')
        | _ => none
      else if c = 't' then
        match rest with
        | 'r' :: 'u' :: 'e' :: rest' => some (.bool true, rest')
        | _ => none
      else if c = 'f' then
        match rest with
        | 'a' :: 'l' :: 's' :: 'e' :: rest' => some (.bool false, rest')
        | _ => none
      else if c = '"' then
        match parseStringBody (fuel+1) rest with
        | some (body, rest') => some (.str ⟨body⟩, rest')
        | none => none
      else if c = '[' then
        match skipWs rest with
        | ']' :: rest' => some (.arr [], rest')
        | rest' =>
          match parseJsonArr fuel rest' with
          | some (es, rest'') => some (.arr es, rest'')
          | none => none
      else if c = '\x7b' then
        match skipWs rest with
        | '\x7d' :: rest' => some (.obj [], rest')
        | rest' =>
          match parseJsonObj fuel rest' with
          | some (fs, rest'') => some (.obj fs, rest'')
          | none => none
      else if c = '-' then
        match takeDigits rest with
        | ([], _) => none
        | (ds, rest') => some (.num (-(digitsToNat ds : Int)), rest')
      else if c.isDigit then
        match takeDigits (c :: rest) with
        | (ds, rest') => some (.num (digitsToNat ds), rest')
      else none

/-- Elements of a non-empty JSON array, up to and including `]`. -/
def parseJsonArr : Nat → List Char → Option (List Json × List Char)
  | 0, _ => none
  | fuel+1, cs =>
    match parseJsonVal fuel cs with
    | none => none
    | some (j, rest) =>
      match skipWs rest with
      | ',' :: rest' =>
        match parseJsonArr fuel rest' with
        | some (es, rest'') => some (j :: es, rest'')
        | none => none
      | ']' :: rest' => some ([j], rest')
      | _ => none

/-- Members of a non-empty JSON object, up to and including the closing
brace. -/
def parseJsonObj : Nat → List Char → Option (List (String × Json) × List Char)
  | 0, _ => none
  | fuel+1, cs =>
    match skipWs cs with
    | '"' :: rest =>
      match parseStringBody (fuel+1) rest with
      | none => none
      | some (key, rest') =>
        match skipWs rest' with
        | ':' :: rest'' =>
          match parseJsonVal fuel rest'' with
          | none => none
          | some (v, rest3) =>
            match skipWs rest3 with
            | ',' :: rest4 =>
              match parseJsonObj fuel rest4 with
              | some (fs, rest5) => some ((⟨key⟩, v) :: fs, rest5)
              | none => none
            | '\x7d' :: rest4 => some ([(⟨key⟩, v)], rest4)
            | _ => none
        | _ => none
    | _ => none

end

/-- Model of `JSON.parse` (`todo.jsx:23`): `some` is the returned value, `none`
is a thrown `SyntaxError`.  The fuel is generous — nesting depth never
exceeds the input length. -/
def jsonParse (s : String) : Option Json :=
  match parseJsonVal (2 * s.length + 2) s.data with
  | some (j, rest) => if skipWs rest = [] then some j else none
  | none => none

/-- The `useState` initializer (`todo.jsx:21-24`):
`const stored = localStorage.getItem("todos");
 return stored ? JSON.parse(stored) : [];`
`stored` is `none` when the key is absent.  A falsy `stored` (absent, or
the empty string) yields `[]`; otherwise `JSON.parse` runs with no
surrounding `try`/`catch`, so a parse failure propagates as an
exception (`Except.error`). -/
def loadSlot (stored : Option String) : Except String Json :=
  match stored with
  | none => .ok (.arr [])
  | some s =>
    if s = "" then .ok (.arr [])
    else
      match jsonParse s with
      | some j => .ok j
      | none => .error "SyntaxError"

/-- A user intent reaching the store: the three handlers of
`todo.jsx:33-55`.  An `add` carries the two input fields, the value the
`crypto.randomUUID()` call returns, and the calendar date the clock
reads (`todo.jsx:42`). -/
inductive Op where
  | add (inputValue inputDate freshId : String) (y m d : Nat)
  | toggle (id : String)
  | remove (id : String)

/-- The in-memory list after one handler runs. -/
def applyOp (todos : List Task) : Op → List Task
  | .add input inputDate fid y m d =>
      addTodo todos input inputDate fid (isoDateString y m d)
  | .toggle id => toggleTodo todos id
  | .remove id => deleteTodo todos id

/-- The in-memory list after a finite sequence of handler runs. -/
def applyOps (todos : List Task) : List Op → List Task
  | [] => todos
  | op :: ops => applyOps (applyOp todos op) ops

/-- Freshness of `crypto.randomUUID()` along a run: every `add` draws an id
not currently in the list.  This is the guarantee the UUID generator
provides probabilistically; it is the hypothesis under which the spec's
distinctness invariant is stated. -/
def freshRun (todos : List Task) : List Op → Bool
  | [] => true
  | op :: ops =>
    (match op with
     | .add _ _ fid _ _ _ => !((ids todos).contains fid)
     | _ => true) && freshRun (applyOp todos op) ops

/-- The component's state together with the localStorage slot
`"todos"`. -/
structure StoreState where
  todos : List Task
  slot : String

/-- One handler invocation followed by the React commit: when the
handler calls `setTodos`, the component re-renders and the
`useEffect([todos])` at `todo.jsx:28-30` runs
`localStorage.setItem("todos", JSON.stringify(todos))` once, after the
new list is in place.  When `addTodo` returns early
(`if (!text) return`, `todo.jsx:35`) no state change and no write
happen.  The second component counts the `setItem` calls. -/
def runOp (s : StoreState) : Op → StoreState × Nat
  | .add input inputDate fid y m d =>
    if jsTrim input = "" then (s, 0)
    else
      let todos := addTodo s.todos input inputDate fid (isoDateString y m d)
      ({ todos := todos, slot := stringifyTasks todos }, 1)
  | .toggle id =>
    let todos := toggleTodo s.todos id
    ({ todos := todos, slot := stringifyTasks todos }, 1)
  | .remove id =>
    let todos := deleteTodo s.todos id
    ({ todos := todos, slot := stringifyTasks todos }, 1)

/-- The mutating operations of the spec: an `add` whose trimmed text is
non-empty, and every `toggle` and `remove`. -/
def isMutating : Op → Bool
  | .add input _ _ _ _ _ => jsTrim input != ""
  | .toggle _ => true
  | .remove _ => true

/-- The escape image of a character sequence inside a printed JSON
string literal: the concatenation of `escChar` over the characters. -/
def escaped : List Char → List Char
  | [] => []
  | c :: cs => escChar c ++ escaped cs

/-- Scalar JSON values, the only value shapes that occur inside an
encoded task record. -/
def isScalar : Json → Bool
  | .str _ => true
  | .bool _ => true
  | _ => false

/-! ## Helper lemmas -/

theorem ids_append (l1 l2 : List Task) : ids (l1 ++ l2) = ids l1 ++ ids l2 := by
  simp [ids]

theorem toggle_ids (l : List Task) (tid : String) :
    ids (toggleTodo l tid) = ids l := by
  unfold ids toggleTodo
  rw [List.map_map]
  apply List.map_congr_left
  intro t _
  by_cases h : t.id = tid <;> simp [h]

theorem toggle_not_mem (l : List Task) (tid : String) (h : tid ∉ ids l) :
    toggleTodo l tid = l := by
  unfold toggleTodo
  have : ∀ t ∈ l, (if t.id = tid then { t with completed := !t.completed } else t) = t := by
    intro t ht
    have : t.id ≠ tid := fun he => h (he ▸ List.mem_map_of_mem Task.id ht)
    simp [this]
  rw [List.map_congr_left this]
  simp

theorem toggle_toggle (l : List Task) (tid : String) :
    toggleTodo (toggleTodo l tid) tid = l := by
  unfold toggleTodo
  rw [List.map_map]
  have : ∀ t ∈ l,
      ((fun t => if t.id = tid then { t with completed := !t.completed } else t) ∘
       (fun t => if t.id = tid then { t with completed := !t.completed } else t)) t = t := by
    intro t _
    rcases t with ⟨i, tx, c, dt⟩
    by_cases h : i = tid <;> simp [h]
  rw [List.map_congr_left this]
  simp

theorem delete_sublist (l : List Task) (tid : String) :
    (deleteTodo l tid).Sublist l :=
  List.filter_sublist l

theorem delete_not_mem (l : List Task) (tid : String) (h : tid ∉ ids l) :
    deleteTodo l tid = l := by
  unfold deleteTodo
  apply List.filter_eq_self.2
  intro t ht
  have : t.id ≠ tid := fun he => h (he ▸ List.mem_map_of_mem Task.id ht)
  simpa using this

theorem addTodo_of_empty (l : List Task) (s d fid today : String)
    (h : jsTrim s = "") : addTodo l s d fid today = l := by
  simp [addTodo, h]

theorem addTodo_of_ne (l : List Task) (s d fid today : String)
    (h : jsTrim s ≠ "") :
    addTodo l s d fid today =
      l ++ [{ id := fid, text := jsTrim s, completed := false,
              date := if d = "" then today else d }] := by
  simp [addTodo, h]

theorem addTodo_nodup (l : List Task) (s d fid today : String)
    (hnd : (ids l).Nodup) (hf : fid ∉ ids l) :
    (ids (addTodo l s d fid today)).Nodup := by
  by_cases h : jsTrim s = ""
  · rwa [addTodo_of_empty l s d fid today h]
  · rw [addTodo_of_ne l s d fid today h, ids_append, List.nodup_append]
    refine ⟨hnd, by simp [ids], fun a ha hb => ?_⟩
    simp [ids] at hb
    exact hf (hb ▸ ha)

/-! ## The claims -/

/-- C3: for every string whose trim is non-empty, `add` appends exactly
one task at the end, with the trimmed text, `completed = false`, the
injected fresh id, and the supplied date or else today's date; with a
fresh id and distinct ids before, ids stay distinct. -/
theorem addTodo_appends (l : List Task) (s d fid today : String)
    (h : jsTrim s ≠ "") :
    addTodo l s d fid today =
      l ++ [{ id := fid, text := jsTrim s, completed := false,
              date := if d = "" then today else d }] ∧
    (addTodo l s d fid today).length = l.length + 1 ∧
    ((ids l).Nodup → fid ∉ ids l → (ids (addTodo l s d fid today)).Nodup) :=
  ⟨addTodo_of_ne l s d fid today h, by simp [addTodo, h],
   fun hnd hf => addTodo_nodup l s d fid today hnd hf⟩

/-- C3 witness at a concrete input. -/
theorem addTodo_appends_witness :
    addTodo ([] : List Task) " buy milk " "" "u1" "2026-10-11" =
      ([] : List Task) ++
        [{ id := "u1", text := "buy milk", completed := false,
           date := if "" = "" then "2026-10-11" else "" }] ∧
    (addTodo ([] : List Task) " buy milk " "" "u1" "2026-10-11").length =
      ([] : List Task).length + 1 ∧
    ((ids ([] : List Task)).Nodup → "u1" ∉ ids ([] : List Task) →
      (ids (addTodo ([] : List Task) " buy milk " "" "u1" "2026-10-11")).Nodup) :=
  addTodo_appends ([] : List Task) " buy milk " "" "u1" "2026-10-11" (by decide)

/-- C6: a string that trims to empty makes `add` a no-op — no task
created, list unchanged, no error. -/
theorem addTodo_empty_noop (l : List Task) (s d fid today : String)
    (h : jsTrim s = "") :
    addTodo l s d fid today = l :=
  addTodo_of_empty l s d fid today h

/-- C6 witness: the whitespace-only and empty inputs from the spec. -/
theorem addTodo_empty_noop_witness :
    addTodo ([] : List Task) "   " "" "u1" "2026-10-11" = ([] : List Task) ∧
    addTodo ([] : List Task) "" "" "u2" "2026-10-11" = ([] : List Task) :=
  ⟨addTodo_empty_noop ([] : List Task) "   " "" "u1" "2026-10-11" (by decide),
   addTodo_empty_noop ([] : List Task) "" "" "u2" "2026-10-11" (by decide)⟩

/-- C9: `deleteTodo` filters out every task whose id matches, so no
matching task remains and the length drops by the number of matching
tasks, not necessarily by 1. -/
theorem deleteTodo_removes_all (l : List Task) (tid : String) :
    (deleteTodo l tid).countP (fun t => t.id == tid) = 0 ∧
    (deleteTodo l tid).length + l.countP (fun t => t.id == tid) = l.length := by
  induction l with
  | nil => exact ⟨rfl, rfl⟩
  | cons a rest ih =>
    by_cases h : a.id = tid
    · refine ⟨by simp [deleteTodo, h], ?_⟩
      have h2 := ih.2
      simp only [deleteTodo] at h2 ⊢
      simp [List.countP_cons, h]
      omega
    · refine ⟨by simp [deleteTodo, List.countP_cons, h], ?_⟩
      have h2 := ih.2
      simp only [deleteTodo] at h2 ⊢
      simp [List.countP_cons, h]
      omega

theorem toggleTodo_cons (a : Task) (rest : List Task) (tid : String) :
    toggleTodo (a :: rest) tid =
      (if a.id = tid then { a with completed := !a.completed } else a) ::
        toggleTodo rest tid := rfl

theorem toggle_decomp (l : List Task) (tid : String)
    (hnd : (ids l).Nodup) (hmem : tid ∈ ids l) :
    ∃ l1 t l2, l = l1 ++ t :: l2 ∧ t.id = tid ∧
      toggleTodo l tid = l1 ++ { t with completed := !t.completed } :: l2 := by
  induction l with
  | nil => cases hmem
  | cons a rest ih =>
    simp only [ids, List.map_cons, List.nodup_cons] at hnd
    by_cases h : a.id = tid
    · refine ⟨[], a, rest, rfl, h, ?_⟩
      have hrest : tid ∉ ids rest := h ▸ hnd.1
      rw [toggleTodo_cons, if_pos h, toggle_not_mem rest tid hrest]
      rfl
    · have hmem' : tid ∈ ids rest := by
        simp only [ids, List.map_cons, List.mem_cons] at hmem
        rcases hmem with he | hm
        · exact absurd he.symm h
        · exact hm
      obtain ⟨l1, t, l2, he, hid, htog⟩ := ih hnd.2 hmem'
      refine ⟨a :: l1, t, l2, by rw [List.cons_append, ← he], hid, ?_⟩
      rw [toggleTodo_cons, if_neg h, htog, List.cons_append]

/-- C4: on a list with pairwise-distinct ids, toggling an id present in
the list flips exactly that task's `completed` flag in place, leaving
every other task and the other fields untouched, and toggling twice
restores the original list. -/
theorem toggleTodo_spec (l : List Task) (tid : String)
    (hnd : (ids l).Nodup) (hmem : tid ∈ ids l) :
    (∃ l1 t l2, l = l1 ++ t :: l2 ∧ t.id = tid ∧
      toggleTodo l tid = l1 ++ { t with completed := !t.completed } :: l2) ∧
    toggleTodo (toggleTodo l tid) tid = l :=
  ⟨toggle_decomp l tid hnd hmem, toggle_toggle l tid⟩

/-- C4 witness: a two-task list, toggling the second id. -/
theorem toggleTodo_spec_witness :
    (ids [⟨"a", "x", false, "d1"⟩, ⟨"b", "y", true, "d2"⟩]).Nodup ∧
    "b" ∈ ids [⟨"a", "x", false, "d1"⟩, ⟨"b", "y", true, "d2"⟩] ∧
    ((∃ l1 t l2,
        [(⟨"a", "x", false, "d1"⟩ : Task), ⟨"b", "y", true, "d2"⟩] =
          l1 ++ t :: l2 ∧ t.id = "b" ∧
        toggleTodo [⟨"a", "x", false, "d1"⟩, ⟨"b", "y", true, "d2"⟩] "b" =
          l1 ++ { t with completed := !t.completed } :: l2) ∧
     toggleTodo (toggleTodo [⟨"a", "x", false, "d1"⟩, ⟨"b", "y", true, "d2"⟩]
        "b") "b" = [⟨"a", "x", false, "d1"⟩, ⟨"b", "y", true, "d2"⟩]) :=
  ⟨by decide, by decide,
   toggleTodo_spec [⟨"a", "x", false, "d1"⟩, ⟨"b", "y", true, "d2"⟩] "b"
     (by decide) (by decide)⟩

theorem deleteTodo_cons (a : Task) (rest : List Task) (tid : String) :
    deleteTodo (a :: rest) tid =
      if a.id = tid then deleteTodo rest tid else a :: deleteTodo rest tid := by
  simp only [deleteTodo, List.filter_cons]
  by_cases h : a.id = tid <;> simp [h]

theorem delete_id_not_mem (l : List Task) (tid : String) :
    tid ∉ ids (deleteTodo l tid) := by
  intro hmem
  obtain ⟨t, ht, hid⟩ := List.mem_map.1 hmem
  have := (List.mem_filter.1 ht).2
  simp at this
  exact this hid

theorem delete_length_mem (l : List Task) (tid : String)
    (hnd : (ids l).Nodup) (hmem : tid ∈ ids l) :
    (deleteTodo l tid).length + 1 = l.length := by
  induction l with
  | nil => cases hmem
  | cons a rest ih =>
    simp only [ids, List.map_cons, List.nodup_cons] at hnd
    by_cases h : a.id = tid
    · have hrest : tid ∉ ids rest := h ▸ hnd.1
      rw [deleteTodo_cons, if_pos h, delete_not_mem rest tid hrest]
      simp
    · have hmem' : tid ∈ ids rest := by
        simp only [ids, List.map_cons, List.mem_cons] at hmem
        rcases hmem with he | hm
        · exact absurd he.symm h
        · exact hm
      rw [deleteTodo_cons, if_neg h]
      simpa using ih hnd.2 hmem'

/-- C5: on a list with pairwise-distinct ids, removing a present id
drops the length by exactly 1, leaves no task with that id, and keeps
the remaining tasks in their relative order (the result is a sublist of
the original); removing an absent id changes nothing. -/
theorem deleteTodo_spec (l : List Task) (tid : String)
    (hnd : (ids l).Nodup) :
    (tid ∈ ids l →
      (deleteTodo l tid).length + 1 = l.length ∧
      tid ∉ ids (deleteTodo l tid) ∧
      (deleteTodo l tid).Sublist l) ∧
    (tid ∉ ids l → deleteTodo l tid = l) :=
  ⟨fun hmem => ⟨delete_length_mem l tid hnd hmem, delete_id_not_mem l tid,
      delete_sublist l tid⟩,
   fun hnmem => delete_not_mem l tid hnmem⟩

/-- C5 witness: a two-task list, removing the first id. -/
theorem deleteTodo_spec_witness :
    (ids [⟨"a", "x", false, "d1"⟩, ⟨"b", "y", true, "d2"⟩]).Nodup ∧
    (("a" ∈ ids [⟨"a", "x", false, "d1"⟩, ⟨"b", "y", true, "d2"⟩] →
      (deleteTodo [⟨"a", "x", false, "d1"⟩, ⟨"b", "y", true, "d2"⟩]
          "a").length + 1 =
        [(⟨"a", "x", false, "d1"⟩ : Task), ⟨"b", "y", true, "d2"⟩].length ∧
      "a" ∉ ids (deleteTodo [⟨"a", "x", false, "d1"⟩, ⟨"b", "y", true, "d2"⟩]
          "a") ∧
      (deleteTodo [⟨"a", "x", false, "d1"⟩, ⟨"b", "y", true, "d2"⟩]
          "a").Sublist [⟨"a", "x", false, "d1"⟩, ⟨"b", "y", true, "d2"⟩]) ∧
     ("a" ∉ ids [⟨"a", "x", false, "d1"⟩, ⟨"b", "y", true, "d2"⟩] →
      deleteTodo [⟨"a", "x", false, "d1"⟩, ⟨"b", "y", true, "d2"⟩] "a" =
        [⟨"a", "x", false, "d1"⟩, ⟨"b", "y", true, "d2"⟩])) :=
  ⟨by decide,
   deleteTodo_spec [⟨"a", "x", false, "d1"⟩, ⟨"b", "y", true, "d2"⟩] "a"
     (by decide)⟩

theorem applyOp_ids_nodup (l : List Task) (op : Op)
    (hnd : (ids l).Nodup)
    (hfresh : (match op with
               | .add _ _ fid _ _ _ => !((ids l).contains fid)
               | _ => true) = true) :
    (ids (applyOp l op)).Nodup := by
  cases op with
  | add input inputDate fid y m d =>
    have hf : fid ∉ ids l := by simpa using hfresh
    exact addTodo_nodup l input inputDate fid (isoDateString y m d) hnd hf
  | toggle tid => rw [applyOp, toggle_ids]; exact hnd
  | remove tid =>
    exact List.Nodup.sublist (List.Sublist.map Task.id
      (delete_sublist l tid)) hnd

/-- C7: starting from pairwise-distinct ids, any finite run of add,
toggle and remove operations in which every `add` draws an id not
currently in the list keeps the ids pairwise distinct. -/
theorem applyOps_ids_nodup (l : List Task) (ops : List Op)
    (hnd : (ids l).Nodup) (hfresh : freshRun l ops = true) :
    (ids (applyOps l ops)).Nodup := by
  induction ops generalizing l with
  | nil => exact hnd
  | cons op ops ih =>
    cases op with
    | add input inputDate fid y m d =>
      rw [show freshRun l (Op.add input inputDate fid y m d :: ops) =
            ((!((ids l).contains fid)) &&
              freshRun (applyOp l (Op.add input inputDate fid y m d)) ops)
          from rfl, Bool.and_eq_true] at hfresh
      exact ih _ (applyOp_ids_nodup l _ hnd hfresh.1) hfresh.2
    | toggle tid =>
      rw [show freshRun l (Op.toggle tid :: ops) =
            (true && freshRun (applyOp l (Op.toggle tid)) ops) from rfl,
          Bool.and_eq_true] at hfresh
      exact ih _ (applyOp_ids_nodup l _ hnd hfresh.1) hfresh.2
    | remove tid =>
      rw [show freshRun l (Op.remove tid :: ops) =
            (true && freshRun (applyOp l (Op.remove tid)) ops) from rfl,
          Bool.and_eq_true] at hfresh
      exact ih _ (applyOp_ids_nodup l _ hnd hfresh.1) hfresh.2

/-- C7 witness: a concrete run with two adds, a toggle and a remove. -/
theorem applyOps_ids_nodup_witness :
    (ids ([] : List Task)).Nodup ∧
    freshRun ([] : List Task)
      [Op.add "a" "" "u1" 2026 1 2, Op.toggle "u1",
       Op.add "b" "" "u2" 2026 1 3, Op.remove "u1"] = true ∧
    (ids (applyOps ([] : List Task)
      [Op.add "a" "" "u1" 2026 1 2, Op.toggle "u1",
       Op.add "b" "" "u2" 2026 1 3, Op.remove "u1"])).Nodup :=
  ⟨by decide, by decide,
   applyOps_ids_nodup ([] : List Task)
     [Op.add "a" "" "u1" 2026 1 2, Op.toggle "u1",
      Op.add "b" "" "u2" 2026 1 3, Op.remove "u1"] (by decide) (by decide)⟩

/-- C2: every mutating operation (add with non-empty trimmed text,
toggle, remove) performs exactly one `setItem` write, as the last
step after the in-memory list is updated, so afterwards the slot holds
the serialization of the current list. -/
theorem runOp_persists (st : StoreState) (op : Op)
    (h : isMutating op = true) :
    (runOp st op).2 = 1 ∧
    (runOp st op).1.todos = applyOp st.todos op ∧
    (runOp st op).1.slot = stringifyTasks (applyOp st.todos op) := by
  cases op with
  | add input inputDate fid y m d =>
    have ht : ¬ jsTrim input = "" := by simpa [isMutating] using h
    simp [runOp, applyOp, ht]
  | toggle tid => exact ⟨rfl, rfl, rfl⟩
  | remove tid => exact ⟨rfl, rfl, rfl⟩

/-- C2 witness: toggling an id on a one-task store. -/
theorem runOp_persists_witness :
    isMutating (Op.toggle "a") = true ∧
    ((runOp ⟨[⟨"a", "x", false, "d"⟩], ""⟩ (Op.toggle "a")).2 = 1 ∧
     (runOp ⟨[⟨"a", "x", false, "d"⟩], ""⟩ (Op.toggle "a")).1.todos =
       applyOp [⟨"a", "x", false, "d"⟩] (Op.toggle "a") ∧
     (runOp ⟨[⟨"a", "x", false, "d"⟩], ""⟩ (Op.toggle "a")).1.slot =
       stringifyTasks (applyOp [⟨"a", "x", false, "d"⟩] (Op.toggle "a"))) :=
  ⟨rfl, runOp_persists ⟨[⟨"a", "x", false, "d"⟩], ""⟩ (Op.toggle "a") rfl⟩

theorem decode_encode_task (t : Task) : decodeTask (encodeTask t) = some t := by
  rfl

theorem decodeTasks_encodeTasks (l : List Task) :
    decodeTasks (encodeTasks l) = some l := by
  induction l with
  | nil => rfl
  | cons t rest ih =>
    simp only [decodeTasks, encodeTasks, List.map_cons, List.mapM_cons,
      decode_encode_task] at ih ⊢
    rw [ih]
    rfl

theorem foldr_escChar (cs : List Char) (init : List Char) :
    cs.foldr (fun c acc => escChar c ++ acc) init = escaped cs ++ init := by
  induction cs with
  | nil => rfl
  | cons c cs ih =>
    simp only [List.foldr_cons, ih, escaped, List.append_assoc]

theorem escaped_length (cs : List Char) : cs.length ≤ (escaped cs).length := by
  induction cs with
  | nil => simp [escaped]
  | cons c cs ih =>
    simp only [escaped, List.length_append, List.length_cons]
    have : 1 ≤ (escChar c).length := by
      unfold escChar
      repeat' split
      all_goals simp
    omega

theorem parseStringBody_escaped (cs : List Char) :
    ∀ (fuel : Nat) (rest : List Char), cs.length + 1 ≤ fuel →
    parseStringBody fuel (escaped cs ++ '"' :: rest) = some (cs, rest) := by
  induction cs with
  | nil =>
    intro fuel rest h
    obtain ⟨f, rfl⟩ : ∃ f, fuel = f + 1 := ⟨fuel - 1, by omega⟩
    rfl
  | cons c cs ih =>
    intro fuel rest h
    obtain ⟨f, rfl⟩ : ∃ f, fuel = f + 1 := ⟨fuel - 1, by omega⟩
    have hf : cs.length + 1 ≤ f := by
      simp only [List.length_cons] at h
      omega
    by_cases h1 : c = '"'
    · subst h1
      simp [escaped, escChar, parseStringBody, ih f rest hf]
    · by_cases h2 : c = '\\'
      · subst h2
        simp [escaped, escChar, parseStringBody, ih f rest hf]
      · by_cases h3 : c = '\n'
        · subst h3
          simp [escaped, escChar, parseStringBody, ih f rest hf]
        · by_cases h4 : c = '\t'
          · subst h4
            simp [escaped, escChar, parseStringBody, ih f rest hf]
          · by_cases h5 : c = '\r'
            · subst h5
              simp [escaped, escChar, parseStringBody, ih f rest hf]
            · simp [escaped, escChar, h1, h2, h3, h4, h5, parseStringBody,
                ih f rest hf]

theorem parseJsonVal_scalar (v : Json) (hs : isScalar v = true) :
    ∀ (fuel : Nat) (rest : List Char), (printJson v).length ≤ fuel →
    parseJsonVal fuel (printJson v ++ rest) = some (v, rest) := by
  cases v with
  | str s =>
    intro fuel rest h
    have hlen : s.data.length + 2 ≤ (printJson (Json.str s)).length := by
      have h1 := escaped_length s.data
      have h2 : (printJson (Json.str s)).length =
          (escaped s.data).length + 2 := by
        simp [printJson, foldr_escChar]
        try omega
      omega
    obtain ⟨f, rfl⟩ : ∃ f, fuel = f + 1 := ⟨fuel - 1, by omega⟩
    have hb : parseStringBody (f + 1) (escaped s.data ++ '"' :: rest) =
        some (s.data, rest) :=
      parseStringBody_escaped s.data (f + 1) rest (by omega)
    simp only [printJson, foldr_escChar]
    simp [parseJsonVal, skipWs, hb]
  | bool b =>
    intro fuel rest h
    obtain ⟨f, rfl⟩ : ∃ f, fuel = f + 1 := ⟨fuel - 1, by
      cases b <;> simp [printJson] at h <;> omega⟩
    cases b with
    | true =>
      have hd : "true".data = ['t', 'r', 'u', 'e'] := rfl
      simp [printJson, hd, parseJsonVal, skipWs]
    | false =>
      have hd : "false".data = ['f', 'a', 'l', 's', 'e'] := rfl
      simp [printJson, hd, parseJsonVal, skipWs]
  | null => intro fuel rest h; cases hs
  | num n => intro fuel rest h; cases hs
  | arr es => intro fuel rest h; cases hs
  | obj fs => intro fuel rest h; cases hs

theorem parseJsonObj_scalar (fs : List (String × Json)) :
    ∀ (fuel : Nat) (rest : List Char), fs ≠ [] →
    (∀ kv ∈ fs, isScalar kv.2 = true) →
    (printJsonFields fs).length + 1 ≤ fuel →
    parseJsonObj fuel (printJsonFields fs ++ '\x7d' :: rest) =
      some (fs, rest) := by
  induction fs with
  | nil => intro fuel rest hne; exact absurd rfl hne
  | cons kv fs ih =>
    intro fuel rest _ hsc hfuel
    obtain ⟨k, v⟩ := kv
    obtain ⟨f, rfl⟩ : ∃ f, fuel = f + 1 := ⟨fuel - 1, by omega⟩
    have hk := escaped_length k.data
    have hv0 : isScalar v = true := hsc (k, v) (by simp)
    cases fs with
    | nil =>
      have hfields : (printJsonFields [(k, v)]).length =
          (escaped k.data).length + (printJson v).length + 3 := by
        simp [printJsonFields, foldr_escChar]
        try omega
      rw [hfields] at hfuel
      have hsb : parseStringBody (f + 1)
          (escaped k.data ++ '"' :: ':' :: (printJson v ++ '\x7d' :: rest)) =
          some (k.data, ':' :: (printJson v ++ '\x7d' :: rest)) :=
        parseStringBody_escaped k.data (f + 1)
          (':' :: (printJson v ++ '\x7d' :: rest)) (by omega)
      have hval : parseJsonVal f (printJson v ++ '\x7d' :: rest) =
          some (v, '\x7d' :: rest) :=
        parseJsonVal_scalar v hv0 f ('\x7d' :: rest) (by omega)
      simp only [printJsonFields, foldr_escChar]
      simp [parseJsonObj, skipWs, hsb, hval]
    | cons kv2 fs2 =>
      have hfields : (printJsonFields ((k, v) :: kv2 :: fs2)).length =
          (escaped k.data).length + (printJson v).length +
            (printJsonFields (kv2 :: fs2)).length + 4 := by
        simp [printJsonFields, foldr_escChar]
        try omega
      rw [hfields] at hfuel
      have hsb : parseStringBody (f + 1)
          (escaped k.data ++ '"' :: ':' ::
            (printJson v ++ ',' ::
              (printJsonFields (kv2 :: fs2) ++ '\x7d' :: rest))) =
          some (k.data, ':' ::
            (printJson v ++ ',' ::
              (printJsonFields (kv2 :: fs2) ++ '\x7d' :: rest))) :=
        parseStringBody_escaped k.data (f + 1) _ (by omega)
      have hval : parseJsonVal f
          (printJson v ++ ',' ::
            (printJsonFields (kv2 :: fs2) ++ '\x7d' :: rest)) =
          some (v, ',' :: (printJsonFields (kv2 :: fs2) ++ '\x7d' :: rest)) :=
        parseJsonVal_scalar v hv0 f _ (by omega)
      have hrec : parseJsonObj f
          (printJsonFields (kv2 :: fs2) ++ '\x7d' :: rest) =
          some (kv2 :: fs2, rest) :=
        ih f rest (by simp) (fun kv h => hsc kv (List.mem_cons_of_mem _ h))
          (by omega)
      simp only [printJsonFields, foldr_escChar]
      simp [parseJsonObj, skipWs, hsb, hval, hrec]

theorem parseJsonVal_obj (k : String) (v : Json) (fs' : List (String × Json))
    (hsc : ∀ kv ∈ (k, v) :: fs', isScalar kv.2 = true) :
    ∀ (fuel : Nat) (rest : List Char),
    (printJson (Json.obj ((k, v) :: fs'))).length ≤ fuel →
    parseJsonVal fuel (printJson (Json.obj ((k, v) :: fs')) ++ rest) =
      some (Json.obj ((k, v) :: fs'), rest) := by
  intro fuel rest hfuel
  have hlen : (printJson (Json.obj ((k, v) :: fs'))).length =
      (printJsonFields ((k, v) :: fs')).length + 2 := by
    simp [printJson]
    try omega
  rw [hlen] at hfuel
  obtain ⟨f, rfl⟩ : ∃ f, fuel = f + 1 := ⟨fuel - 1, by omega⟩
  have hobj : parseJsonObj f (printJsonFields ((k, v) :: fs') ++
      '\x7d' :: rest) = some ((k, v) :: fs', rest) :=
    parseJsonObj_scalar ((k, v) :: fs') f rest (by simp) hsc (by omega)
  cases fs' with
  | nil =>
    simp only [printJson, printJsonFields, foldr_escChar] at hobj ⊢
    simp only [List.cons_append, List.append_assoc,
      List.singleton_append, List.nil_append] at hobj
    simp [parseJsonVal, skipWs, hobj]
  | cons kv2 fs2 =>
    simp only [printJson, printJsonFields, foldr_escChar] at hobj ⊢
    simp only [List.cons_append, List.append_assoc,
      List.singleton_append, List.nil_append] at hobj
    simp [parseJsonVal, skipWs, hobj]

theorem parseJsonVal_encodeTask (t : Task) (fuel : Nat) (rest : List Char)
    (h : (printJson (encodeTask t)).length ≤ fuel) :
    parseJsonVal fuel (printJson (encodeTask t) ++ rest) =
      some (encodeTask t, rest) := by
  have hsc : ∀ kv ∈ [("id", Json.str t.id), ("text", Json.str t.text),
      ("completed", Json.bool t.completed), ("date", Json.str t.date)],
      isScalar kv.2 = true := by
    intro kv hkv
    obtain ⟨k0, v0⟩ := kv
    simp only [List.mem_cons, List.not_mem_nil, or_false,
      Prod.mk.injEq] at hkv
    rcases hkv with ⟨_, rfl⟩ | ⟨_, rfl⟩ | ⟨_, rfl⟩ | ⟨_, rfl⟩ <;> rfl
  have := parseJsonVal_obj "id" (Json.str t.id)
    [("text", Json.str t.text), ("completed", Json.bool t.completed),
     ("date", Json.str t.date)] (by simpa using hsc) fuel rest
  simpa [encodeTask] using this (by simpa [encodeTask] using h)

theorem printJsonList_map_head (t : Task) (ts : List Task) :
    ∃ tl, printJsonList ((t :: ts).map encodeTask) = '\x7b' :: tl := by
  have hhead : printJson (encodeTask t) = '\x7b' ::
      (printJsonFields [("id", Json.str t.id), ("text", Json.str t.text),
        ("completed", Json.bool t.completed), ("date", Json.str t.date)] ++
        ['\x7d']) := by
    simp [encodeTask, printJson]
  cases ts with
  | nil =>
    exact ⟨printJsonFields [("id", Json.str t.id), ("text", Json.str t.text),
        ("completed", Json.bool t.completed), ("date", Json.str t.date)] ++
      ['\x7d'], by simp [printJsonList, hhead]⟩
  | cons t2 ts2 =>
    exact ⟨(printJsonFields [("id", Json.str t.id), ("text", Json.str t.text),
        ("completed", Json.bool t.completed), ("date", Json.str t.date)] ++
      ['\x7d']) ++
        ',' :: printJsonList ((t2 :: ts2).map encodeTask),
      by simp [printJsonList, List.map_cons, hhead]⟩

theorem parseJsonArr_tasks (t : Task) (ts : List Task) :
    ∀ (fuel : Nat) (rest : List Char),
    (printJsonList ((t :: ts).map encodeTask)).length + 1 ≤ fuel →
    parseJsonArr fuel (printJsonList ((t :: ts).map encodeTask) ++
      ']' :: rest) = some ((t :: ts).map encodeTask, rest) := by
  induction ts generalizing t with
  | nil =>
    intro fuel rest hfuel
    obtain ⟨f, rfl⟩ : ∃ f, fuel = f + 1 := ⟨fuel - 1, by omega⟩
    have hlen1 : printJsonList ((t :: ([] : List Task)).map encodeTask) =
        printJson (encodeTask t) := by
      simp [printJsonList]
    rw [hlen1] at hfuel ⊢
    have hv : parseJsonVal f (printJson (encodeTask t) ++ ']' :: rest) =
        some (encodeTask t, ']' :: rest) :=
      parseJsonVal_encodeTask t f (']' :: rest) (by omega)
    simp [parseJsonArr, skipWs, hv]
  | cons t2 ts2 ih =>
    intro fuel rest hfuel
    obtain ⟨f, rfl⟩ : ∃ f, fuel = f + 1 := ⟨fuel - 1, by omega⟩
    have hlen2 : printJsonList ((t :: t2 :: ts2).map encodeTask) =
        printJson (encodeTask t) ++
          ',' :: printJsonList ((t2 :: ts2).map encodeTask) := by
      simp [printJsonList]
    rw [hlen2] at hfuel ⊢
    have hlens : (printJson (encodeTask t)).length +
        (printJsonList ((t2 :: ts2).map encodeTask)).length + 1 =
        (printJson (encodeTask t) ++
          ',' :: printJsonList ((t2 :: ts2).map encodeTask)).length := by
      simp [List.length_append]
      try omega
    have hv : parseJsonVal f (printJson (encodeTask t) ++
        ',' :: (printJsonList ((t2 :: ts2).map encodeTask) ++
          ']' :: rest)) =
        some (encodeTask t,
          ',' :: (printJsonList ((t2 :: ts2).map encodeTask) ++
            ']' :: rest)) :=
      parseJsonVal_encodeTask t f _ (by omega)
    have hrec : parseJsonArr f
        (printJsonList ((t2 :: ts2).map encodeTask) ++ ']' :: rest) =
        some ((t2 :: ts2).map encodeTask, rest) :=
      ih t2 f rest (by omega)
    simp only [List.map_cons] at hv hrec ⊢
    simp [parseJsonArr, skipWs, hv, hrec]

theorem parseJsonVal_encodeTasks (l : List Task) :
    ∀ (fuel : Nat) (rest : List Char),
    (printJson (encodeTasks l)).length ≤ fuel →
    parseJsonVal fuel (printJson (encodeTasks l) ++ rest) =
      some (encodeTasks l, rest) := by
  cases l with
  | nil =>
    intro fuel rest h
    obtain ⟨f, rfl⟩ : ∃ f, fuel = f + 1 := ⟨fuel - 1, by
      simp [encodeTasks, printJson, printJsonList] at h
      omega⟩
    simp [encodeTasks, printJson, printJsonList, parseJsonVal, skipWs]
  | cons t ts =>
    intro fuel rest h
    have hlen : (printJson (encodeTasks (t :: ts))).length =
        (printJsonList ((t :: ts).map encodeTask)).length + 2 := by
      simp [encodeTasks, printJson]
      try omega
    rw [hlen] at h
    obtain ⟨f, rfl⟩ : ∃ f, fuel = f + 1 := ⟨fuel - 1, by omega⟩
    have harr : parseJsonArr f
        (printJsonList ((t :: ts).map encodeTask) ++ ']' :: rest) =
        some ((t :: ts).map encodeTask, rest) :=
      parseJsonArr_tasks t ts f rest (by omega)
    obtain ⟨tl, htl⟩ := printJsonList_map_head t ts
    rw [htl] at harr
    simp only [List.cons_append] at harr
    simp only [encodeTasks, printJson]
    rw [htl]
    simp [parseJsonVal, skipWs, harr]

theorem jsonParse_stringifyTasks (l : List Task) :
    jsonParse (stringifyTasks l) = some (encodeTasks l) := by
  have hdata : (stringifyTasks l).data = printJson (encodeTasks l) := rfl
  have hlen : (stringifyTasks l).length =
      (printJson (encodeTasks l)).length := rfl
  have hv := parseJsonVal_encodeTasks l
    (2 * (stringifyTasks l).length + 2) [] (by rw [hlen]; omega)
  rw [List.append_nil] at hv
  unfold jsonParse
  rw [hdata, hv]
  simp [skipWs]

/-- C8: serializing a task list to the persisted representation — the
`JSON.stringify` text written to the slot — and deserializing that text
(`JSON.parse` back to the structural value, then reading the four
fields the component accesses) yields an equal sequence: same ids,
texts, completed flags and dates in the same order. -/
theorem serialize_roundtrip (l : List Task) :
    jsonParse (stringifyTasks l) = some (encodeTasks l) ∧
    decodeTasks (encodeTasks l) = some l ∧
    (jsonParse (stringifyTasks l)).bind decodeTasks = some l := by
  have h1 := jsonParse_stringifyTasks l
  have h2 := decodeTasks_encodeTasks l
  refine ⟨h1, h2, ?_⟩
  rw [h1]
  exact h2

theorem isoDateString_ne_empty (y m d : Nat) : isoDateString y m d ≠ "" := by
  intro h
  have hd : (isoDateString y m d).data = [] := congrArg String.data h
  simp [isoDateString, String.data_append] at hd

theorem applyOp_dates (l : List Task) (op : Op)
    (hl : ∀ t ∈ l, t.date ≠ "") : ∀ t ∈ applyOp l op, t.date ≠ "" := by
  cases op with
  | add input inputDate fid y m d =>
    simp only [applyOp, addTodo]
    by_cases ht : jsTrim input = ""
    · simpa [ht] using hl
    · simp only [ht, if_false]
      intro t htmem
      rcases List.mem_append.1 htmem with hm | hm
      · exact hl t hm
      · simp only [List.mem_singleton] at hm
        subst hm
        by_cases hdate : inputDate = "" <;>
          simp [hdate, isoDateString_ne_empty]
  | toggle tid =>
    intro t htmem
    simp only [applyOp, toggleTodo] at htmem
    obtain ⟨u, hu, he⟩ := List.mem_map.1 htmem
    subst he
    by_cases h : u.id = tid <;> simpa [h] using hl u hu
  | remove tid =>
    intro t htmem
    exact hl t (List.mem_of_mem_filter htmem)

/-- C10: a supplied due date equal to the empty string falls through
`inputDate || today` exactly like the unsupplied default, so the task
gets today's date; consequently along any run every stored task keeps a
non-empty date string. -/
theorem empty_date_defaults (l : List Task) (ops : List Op) (s fid : String)
    (y m d : Nat) (hs : jsTrim s ≠ "") (hl : ∀ t ∈ l, t.date ≠ "") :
    applyOp l (.add s "" fid y m d) =
      l ++ [{ id := fid, text := jsTrim s, completed := false,
              date := isoDateString y m d }] ∧
    ∀ t ∈ applyOps l ops, t.date ≠ "" := by
  constructor
  · simp [applyOp, addTodo, hs]
  · induction ops generalizing l with
    | nil => exact hl
    | cons op ops ih => exact ih (applyOp l op) (applyOp_dates l op hl)

/-- C10 witness: an add with an empty supplied date on the empty
store. -/
theorem empty_date_defaults_witness :
    jsTrim "task" ≠ "" ∧
    (applyOp ([] : List Task) (.add "task" "" "u1" 2026 10 11) =
      ([] : List Task) ++
        [{ id := "u1", text := jsTrim "task", completed := false,
           date := isoDateString 2026 10 11 }] ∧
     ∀ t ∈ applyOps ([] : List Task) [Op.add "task" "" "u1" 2026 10 11],
       t.date ≠ "") :=
  ⟨by decide,
   empty_date_defaults ([] : List Task) [Op.add "task" "" "u1" 2026 10 11]
     "task" "u1" 2026 10 11 (by decide) (by intro t ht; cases ht)⟩

/-- C1 counterexample: the slot holding the malformed text `"oops"` does
not make the store start from the empty list — `JSON.parse` has no
surrounding `try`/`catch` at `todo.jsx:21-24`, so the load produces no
value at all (the exception propagates). -/
theorem load_malformed_raises :
    (loadSlot (some "oops")).toOption = none := rfl

/-- C1 as amended: an absent slot or one holding the falsy empty string
initializes the store to the empty list without error; a non-empty
value that does not parse as JSON raises, and the error is surfaced to
the caller, not swallowed; a parsable value is returned as-is. -/
theorem load_behavior :
    loadSlot none = .ok (.arr []) ∧
    loadSlot (some "") = .ok (.arr []) ∧
    (∀ s, jsonParse s = none → s ≠ "" →
      loadSlot (some s) = .error "SyntaxError") ∧
    (∀ s j, jsonParse s = some j → loadSlot (some s) = .ok j) := by
  refine ⟨rfl, rfl, fun s hp hne => ?_, fun s j hp => ?_⟩
  · simp [loadSlot, hne, hp]
  · have hne : s ≠ "" := by
      intro he
      subst he
      exact absurd hp (by simp [jsonParse, parseJsonVal, skipWs])
    simp [loadSlot, hne, hp]

/-- C1 amended-claim witness: the malformed text `"["` raises, the
well-formed text `"[]"` loads as the empty array. -/
theorem load_behavior_witness :
    jsonParse "[" = none ∧ ("[" : String) ≠ "" ∧
    loadSlot (some "[") = .error "SyntaxError" ∧
    jsonParse "[]" = some (.arr []) ∧
    loadSlot (some "[]") = .ok (.arr []) :=
  ⟨rfl, by decide, load_behavior.2.2.1 "[" rfl (by decide),
   rfl, load_behavior.2.2.2 "[]" (.arr []) rfl⟩

end Todo
